import Mathlib

/-!
Shallow embedding of the artifact-handling core of the `aibenchy` repository
(`src/rocm-parser.js` and `src/system-detect.js`).

Strings are modelled by Lean `String` / `List Char`; JavaScript `undefined`
and `null` fields are modelled by `Option`.  The comparison
`artifact.buildDate > grouped[key].buildDate` in JavaScript evaluates to
`false` whenever one side is `null` (the string is converted to `NaN`), which
`jsDateBeats` reproduces.  JavaScript objects with string keys preserve
insertion order, which the association list in `buildMap` reproduces.
-/

/-- Lowercase a single character the way JavaScript `toLowerCase` does on
ASCII input (the only input the gpu tags contain). -/
def jsToLower (c : Char) : Char :=
  if 'A' ≤ c ∧ c ≤ 'Z' then Char.ofNat (c.toNat + 32) else c

/-- Lowercase a character list. -/
def lowerL (cs : List Char) : List Char := cs.map jsToLower

/-- Does `l` start with `sub`?  (Prefix test used by the substring scan.) -/
def hasPre (sub l : List Char) : Bool := decide (l.take sub.length = sub)

/-- JavaScript `s.includes(sub)` on character lists: `sub` occurs
contiguously inside `l`. -/
def jsIncludesL (sub : List Char) : List Char → Bool
  | [] => sub.isEmpty
  | c :: rest => hasPre sub (c :: rest) || jsIncludesL sub rest

/-- JavaScript `filename.replace` with the anchored pattern
`^therock-dist-`: strip that fixed prefix when present, at most once. -/
def dropDist (cs : List Char) : List Char :=
  let p := "therock-dist-".toList
  if p.isPrefixOf cs then cs.drop p.length else cs

/-- JavaScript `replace` with the end-anchored pattern for `.tar.gz`:
strip that fixed suffix when present. -/
def dropTarGz (cs : List Char) : List Char :=
  let s := ".tar.gz".toList
  if s.isSuffixOf cs then cs.take (cs.length - s.length) else cs

/-- JavaScript `cleaned.split('-')`: split on every hyphen, keeping empty
tokens; the empty string splits to `[[]]`. -/
def splitDash : List Char → List (List Char)
  | [] => [[]]
  | c :: rest =>
    match splitDash rest with
    | [] => [[]]
    | h :: t => if c = '-' then [] :: h :: t else (c :: h) :: t

/-- The anchored test `/^\d+\.\d+\./.test(part)`: a non-empty digit run, a
dot, a non-empty digit run, a dot.  Greedy `\d+` followed by `\.` is
deterministic because digits and the dot are disjoint. -/
def versionStartL (cs : List Char) : Bool :=
  let d1 := cs.takeWhile Char.isDigit
  let r1 := cs.dropWhile Char.isDigit
  if d1 = [] then false
  else if r1.head? = some '.' then
    let r2 := r1.tail
    let d2 := r2.takeWhile Char.isDigit
    let r3 := r2.dropWhile Char.isDigit
    if d2 = [] then false else decide (r3.head? = some '.')
  else false

/-- The backwards scan for the rightmost token passing `versionStartL`
(`for (let i = parts.length - 1; i >= 0; i--)`), returning its index. -/
def findVersionIndex : List (List Char) → Option Nat
  | [] => none
  | p :: rest =>
    match findVersionIndex rest with
    | some j => some (j + 1)
    | none => if versionStartL p then some 0 else none

/-- Try to match `\d+\.\d+\.\d+` at the start of `cs` (all `\d+` greedy);
on success return the matched characters and the remainder. -/
def matchV3At (cs : List Char) : Option (List Char × List Char) :=
  let d1 := cs.takeWhile Char.isDigit
  let r1 := cs.dropWhile Char.isDigit
  if d1 = [] then none
  else if r1.head? = some '.' then
    let r2 := r1.tail
    let d2 := r2.takeWhile Char.isDigit
    let r3 := r2.dropWhile Char.isDigit
    if d2 = [] then none
    else if r3.head? = some '.' then
      let r4 := r3.tail
      let d3 := r4.takeWhile Char.isDigit
      if d3 = [] then none
      else some (d1 ++ '.' :: d2 ++ '.' :: d3, r4.dropWhile Char.isDigit)
    else none
  else none

/-- JavaScript `version.match(/(\d+\.\d+\.\d+)(.*)/)`: the leftmost match of
`\d+\.\d+\.\d+`, with the rest of the string as the second capture. -/
def searchV3 : List Char → Option (List Char × List Char)
  | [] => none
  | c :: rest =>
    match matchV3At (c :: rest) with
    | some r => some r
    | none => searchV3 rest

/-- JavaScript `buildTag.match(/(\d{8})/)`: the leftmost window of 8
consecutive digits, if any. -/
def search8 : List Char → Option (List Char)
  | [] => none
  | c :: rest =>
    let w := (c :: rest).take 8
    if w.length = 8 ∧ (∀ x ∈ w, x.isDigit = true) then some w else search8 rest

/-- Format an 8-digit window `YYYYMMDD` as `YYYY-MM-DD`. -/
def fmtDate (w : List Char) : String :=
  (w.take 4 ++ '-' :: ((w.drop 4).take 2 ++ '-' :: (w.drop 6).take 2)).asString

/-- Anchored test for `^\d+\.\d+\.\d+$` on a character list. -/
def isCoreL (cs : List Char) : Bool :=
  let d1 := cs.takeWhile Char.isDigit
  let r1 := cs.dropWhile Char.isDigit
  if d1 = [] then false
  else if r1.head? = some '.' then
    let r2 := r1.tail
    let d2 := r2.takeWhile Char.isDigit
    let r3 := r2.dropWhile Char.isDigit
    if d2 = [] then false
    else if r3.head? = some '.' then
      let r4 := r3.tail
      let d3 := r4.takeWhile Char.isDigit
      decide (¬d3 = []) && decide (r4.dropWhile Char.isDigit = [])
    else false
  else false

/-- `isCoreL` on a `String` (the spec's `^\d+\.\d+\.\d+$` invariant). -/
def isCoreVersion (s : String) : Bool := isCoreL s.toList

/-- JavaScript `array.join('-')`. -/
def joinDash : List (List Char) → List Char
  | [] => []
  | [x] => x
  | x :: y :: rest => x ++ '-' :: joinDash (y :: rest)

/-- A parsed ROCm artifact (the object literal returned by
`parseArtifactInfo`).  `variant = none` models JavaScript `undefined`,
`buildDate = none` models `null`. -/
structure Artifact where
  filename : String
  url : String
  platform : String
  gpu : String
  variant : Option String
  rocmVersion : String
  buildTag : String
  buildDate : Option String
  fullVersion : String
deriving DecidableEq

/-- The gpu/variant case split on the middle tokens of the filename
(`middleParts.length === 1 / === 2 / else`).  In the `else` branch with no
middle tokens at all, `join` of the empty slice gives the empty gpu and the
out-of-bounds index gives `undefined` (`none`), exactly as in JavaScript. -/
def gpuVariant (middle : List (List Char)) : String × Option String :=
  if middle.length = 1 then ((middle.getD 0 []).asString, some "default")
  else if middle.length = 2 then
    ((middle.getD 0 []).asString, some (middle.getD 1 []).asString)
  else ((joinDash middle.dropLast).asString, middle.getLast?.map List.asString)

/-- `version.match(/(\d+\.\d+\.\d+)(.*)/)` giving `(rocmVersion, buildTag)`;
when the regex does not match, the raw version is kept and the buildTag is
empty. -/
def verSplit (version : List Char) : String × String :=
  match searchV3 version with
  | some (v, r) => (v.asString, r.asString)
  | none => (version.asString, "")

/-- Strip prefix/suffix and split the filename on hyphens. -/
def splitParts (filename : String) : List (List Char) :=
  splitDash (dropTarGz (dropDist filename.toList))

/-- The artifact record built in the success branch of `parseArtifactInfo`,
given the token list and the version index. -/
def mkArtifact (url filename : String) (parts : List (List Char)) (vi : Nat) :
    Artifact :=
  let version := parts.getD vi []
  let gv := gpuVariant ((parts.drop 1).take (vi - 1))
  let rb := verSplit version
  { filename := filename
    url := url
    platform := (parts.getD 0 []).asString
    gpu := gv.1
    variant := gv.2
    rocmVersion := rb.1
    buildTag := rb.2
    buildDate := (search8 rb.2.toList).map fmtDate
    fullVersion := version.asString }

/-- `parseArtifactInfo(url, filename)` from `src/rocm-parser.js`. -/
def parseArtifactInfo (url filename : String) : Option Artifact :=
  let parts := splitParts filename
  if parts.length < 3 then none
  else
    match findVersionIndex parts with
    | none => none
    | some vi => some (mkArtifact url filename parts vi)

/-- JavaScript template rendering of a possibly-`undefined` string field. -/
def optStr : Option String → String
  | some s => s
  | none => "undefined"

/-- Group key `` `${platform}-${gpu}-${variant}` `` of `filterArtifacts`. -/
def gKey3 (a : Artifact) : String :=
  a.platform ++ "-" ++ a.gpu ++ "-" ++ optStr a.variant

/-- Group key `` `${gpu}-${variant}` `` of `findCompatibleArtifacts`. -/
def gKey2 (a : Artifact) : String := a.gpu ++ "-" ++ optStr a.variant

/-- JavaScript string comparison `a < b` on character lists: lexicographic
by code unit (all artifact dates are ASCII, where code units and code
points agree). -/
def jsStrLtL : List Char → List Char → Bool
  | [], [] => false
  | [], _ :: _ => true
  | _ :: _, [] => false
  | a :: as, b :: bs => if a = b then jsStrLtL as bs else decide (a.toNat < b.toNat)

/-- JavaScript string comparison `a < b`. -/
def jsStrLt (a b : String) : Bool := jsStrLtL a.toList b.toList

/-- `a ≤ b` for JavaScript strings, i.e. not `b < a`. -/
def jsStrLe (a b : String) : Bool := !jsStrLt b a

/-- The JavaScript test
`artifact.buildDate && artifact.buildDate > grouped[key].buildDate`.
When either side is `null` the relational comparison converts the string to
`NaN` and yields `false`, so only two present dates ever compare. -/
def jsDateBeats (newD cur : Option String) : Bool :=
  match newD, cur with
  | some d, some c => jsStrLt c d
  | _, _ => false

/-- One step of the grouping loop on the value already stored for a key. -/
def step (cur : Option Artifact) (a : Artifact) : Option Artifact :=
  match cur with
  | none => some a
  | some c => if jsDateBeats a.buildDate c.buildDate then some a else some c

/-- `grouped[key] = artifact` on an insertion-ordered association list:
replace the value in place when the key exists (and the new date wins),
append otherwise. -/
def upd (k : String) (a : Artifact) :
    List (String × Artifact) → List (String × Artifact)
  | [] => [(k, a)]
  | (k', b) :: rest =>
    if k' = k then
      (k', if jsDateBeats a.buildDate b.buildDate then a else b) :: rest
    else (k', b) :: upd k a rest

/-- The grouping loop `filtered.forEach(...)` of the `latest` collapse. -/
def buildMap (key : Artifact → String) :
    List Artifact → List (String × Artifact) → List (String × Artifact)
  | [], m => m
  | a :: rest, m => buildMap key rest (upd (key a) a m)

/-- The `latest` collapse: run the grouping loop and take `Object.values`
(insertion order). -/
def collapseLatest (key : Artifact → String) (l : List Artifact) :
    List Artifact :=
  (buildMap key l []).map Prod.snd

/-- First value stored under a key in the association list. -/
def lookupA (k : String) : List (String × Artifact) → Option Artifact
  | [] => none
  | (k', a) :: rest => if k' = k then some a else lookupA k rest

/-- The value the grouping loop leaves for one key, as a fold over the
artifacts that hit that key. -/
def bestOf (cur : Option Artifact) : List Artifact → Option Artifact
  | [] => cur
  | a :: rest => bestOf (step cur a) rest

/-- The `filters` object of `filterArtifacts` (`none` models an absent
field; the empty string is falsy in JavaScript, so it also skips the
corresponding filter). -/
structure RocmFilters where
  platform : Option String
  gpu : Option String
  variant : Option String
  rocmVersion : Option String
  latest : Bool

/-- One `if (filters.x) filtered = filtered.filter(...)` stage: a `none`
(absent) or empty-string (falsy) criterion skips the stage. -/
def optFilter (o : Option String) (f : String → Artifact → Bool)
    (l : List Artifact) : List Artifact :=
  match o with
  | some v => if v = "" then l else l.filter (f v)
  | none => l

/-- `filterArtifacts(artifacts, filters)` from `src/rocm-parser.js`. -/
def filterArtifacts (artifacts : List Artifact) (f : RocmFilters) :
    List Artifact :=
  let l1 := optFilter f.platform (fun p a => decide (a.platform = p)) artifacts
  let l2 := optFilter f.gpu (fun g a => decide (a.gpu = g)) l1
  let l3 := optFilter f.variant (fun v a => decide (a.variant = some v)) l2
  let l4 := optFilter f.rocmVersion (fun v a => decide (a.rocmVersion = v)) l3
  if f.latest then collapseLatest gKey3 l4 else l4

/-- The parts of the system profile `findCompatibleArtifacts` reads. -/
structure SystemInfo where
  platform : String
  rocmGpuFamilies : List String
  detected : Bool

/-- The `options` object of `findCompatibleArtifacts`. -/
structure CompatOptions where
  variant : Option String
  rocmVersion : Option String
  latest : Bool

/-- `systemInfo.rocmGpuFamilies.some(family =>
artifactGpu.includes(family.toLowerCase()))` with `artifactGpu` already
lowercased. -/
def gpuFamilyMatch (families : List String) (gpuTag : String) : Bool :=
  families.any fun fam => jsIncludesL (lowerL fam.toList) (lowerL gpuTag.toList)

/-- The compatibility predicate of the first filter pass of
`findCompatibleArtifacts`. -/
def compatPred (sys : SystemInfo) (a : Artifact) : Bool :=
  if a.platform = sys.platform then
    if 0 < sys.rocmGpuFamilies.length then
      gpuFamilyMatch sys.rocmGpuFamilies a.gpu
    else true
  else false

/-- `findCompatibleArtifacts(artifacts, systemInfo, options)` from
`src/system-detect.js`. -/
def findCompatibleArtifacts (artifacts : List Artifact) (sys : SystemInfo)
    (opts : CompatOptions) : List Artifact :=
  if sys.detected = false then artifacts
  else
    let c1 := artifacts.filter (compatPred sys)
    let c2 := optFilter opts.variant (fun v a => decide (a.variant = some v)) c1
    let c3 := optFilter opts.rocmVersion
      (fun v a => decide (a.rocmVersion = v)) c2
    if opts.latest then collapseLatest gKey2 c3 else c3

/-- Filter record selecting only the `latest` collapse. -/
def latestOnly : RocmFilters :=
  { platform := none, gpu := none, variant := none, rocmVersion := none,
    latest := true }

/-- Options requesting no extra filtering. -/
def noOpts : CompatOptions :=
  { variant := none, rocmVersion := none, latest := false }

/-- Options requesting only the `latest` collapse. -/
def optsLatest : CompatOptions :=
  { variant := none, rocmVersion := none, latest := true }

/-- A linux gfx1100 artifact dated 2025-10-20. -/
def artA : Artifact :=
  { filename := "therock-dist-linux-gfx1100-all-7.10.0a20251020.tar.gz"
    url := "u", platform := "linux", gpu := "gfx1100", variant := some "all"
    rocmVersion := "7.10.0", buildTag := "a20251020"
    buildDate := some "2025-10-20", fullVersion := "7.10.0a20251020" }

/-- A linux gfx1100 artifact dated 2025-10-30. -/
def artB : Artifact :=
  { filename := "therock-dist-linux-gfx1100-all-7.10.0a20251030.tar.gz"
    url := "u", platform := "linux", gpu := "gfx1100", variant := some "all"
    rocmVersion := "7.10.0", buildTag := "a20251030"
    buildDate := some "2025-10-30", fullVersion := "7.10.0a20251030" }

/-- A linux gfx1101 artifact dated 2025-10-29. -/
def artC : Artifact :=
  { filename := "therock-dist-linux-gfx1101-all-7.10.0a20251029.tar.gz"
    url := "u", platform := "linux", gpu := "gfx1101", variant := some "all"
    rocmVersion := "7.10.0", buildTag := "a20251029"
    buildDate := some "2025-10-29", fullVersion := "7.10.0a20251029" }

/-- A windows artifact. -/
def artW : Artifact :=
  { filename := "therock-dist-windows-gfx1100-all-7.10.0a20251030.tar.gz"
    url := "u", platform := "windows", gpu := "gfx1100", variant := some "all"
    rocmVersion := "7.10.0", buildTag := "a20251030"
    buildDate := some "2025-10-30", fullVersion := "7.10.0a20251030" }

/-- A linux gfx1100 artifact with no build date (ADHOCBUILD). -/
def artN : Artifact :=
  { filename := "therock-dist-linux-gfx1100-all-7.0.0ADHOCBUILD.tar.gz"
    url := "u", platform := "linux", gpu := "gfx1100", variant := some "all"
    rocmVersion := "7.0.0", buildTag := "ADHOCBUILD"
    buildDate := none, fullVersion := "7.0.0ADHOCBUILD" }

/-- An artifact whose wildcard gpu tag is `gfx110X` itself. -/
def artWild : Artifact :=
  { filename := "therock-dist-linux-gfx110X-all-7.10.0a20251030.tar.gz"
    url := "u", platform := "linux", gpu := "gfx110X", variant := some "all"
    rocmVersion := "7.10.0", buildTag := "a20251030"
    buildDate := some "2025-10-30", fullVersion := "7.10.0a20251030" }

/-- gpu `a-b`, variant `c`: its string group key is `linux-a-b-c`. -/
def artX1 : Artifact :=
  { filename := "f1", url := "u", platform := "linux", gpu := "a-b"
    variant := some "c", rocmVersion := "7.0.0", buildTag := "a20250101"
    buildDate := some "2025-01-01", fullVersion := "7.0.0a20250101" }

/-- gpu `a`, variant `b-c`: a different tuple with the same string group key
`linux-a-b-c` as `artX1`. -/
def artX2 : Artifact :=
  { filename := "f2", url := "u", platform := "linux", gpu := "a"
    variant := some "b-c", rocmVersion := "7.0.0", buildTag := "a20250102"
    buildDate := some "2025-01-02", fullVersion := "7.0.0a20250102" }

/-- The record `parseArtifactInfo` returns for
`therock-dist-1.2.3-a-b.tar.gz` (version token at index 0). -/
def artBad : Artifact :=
  { filename := "therock-dist-1.2.3-a-b.tar.gz", url := "u"
    platform := "1.2.3", gpu := "", variant := none, rocmVersion := "1.2.3"
    buildTag := "", buildDate := none, fullVersion := "1.2.3" }

/-- Profile of a detected gfx1100 system (families from `mapArchToRocmGpu`). -/
def sys110 : SystemInfo :=
  { platform := "linux", rocmGpuFamilies := ["gfx110X", "gfx1100"]
    detected := true }

/-- Profile requesting only the wildcard family tag. -/
def sysWild : SystemInfo :=
  { platform := "linux", rocmGpuFamilies := ["gfx110X"], detected := true }

/-- Profile requesting only the specific member tag. -/
def sysSpec : SystemInfo :=
  { platform := "linux", rocmGpuFamilies := ["gfx1100"], detected := true }

/-- Detected profile with an empty family-tag set. -/
def sysEmptyFam : SystemInfo :=
  { platform := "linux", rocmGpuFamilies := [], detected := true }

/-- Claim C1, counterexample.  A requested wildcard family tag `gfx110X`
does not accept an artifact whose gpuTag is the specific member `gfx1100`
(the lowercased request is not a substring of the artifact tag), and
conversely a wildcard artifact tag `gfx110X` is not accepted by a request
naming only the member `gfx1100` — the filter returns the empty list in
both situations, while the claim asserts both artifacts are accepted. -/
theorem C1_counterexample :
    findCompatibleArtifacts [artB] sysWild noOpts = [] ∧
    findCompatibleArtifacts [artWild] sysSpec noOpts = [] := by
  decide

/-- Claim C2, counterexample.  With the catalog of two linux gfx1100
artifacts (2025-10-20, 2025-10-30) and one linux gfx1101 artifact, the
family set `["gfx110X", "gfx1100"]` and `latest = true`, the gfx1101
artifact is not in the result, while the claim asserts it is. -/
theorem C2_counterexample :
    artC ∉ findCompatibleArtifacts [artA, artB, artC] sys110 optsLatest := by
  decide

/-- Claim C2, amended.  The same filtering yields exactly one artifact: the
gfx1100 one dated 2025-10-30.  The gfx1101 artifact is rejected because
neither requested tag is a substring of `gfx1101`. -/
theorem C2_amended_result :
    findCompatibleArtifacts [artA, artB, artC] sys110 optsLatest = [artB] := by
  decide

/-- Claim C3, counterexample.  In the group of `artN` (no buildDate, seen
first) and `artB` (buildDate 2025-10-30), the collapse keeps `artN`: the
JavaScript comparison `"2025-10-30" > null` is `false`, so the dated
artifact never displaces the date-less one seen first — while the claim
asserts the artifact kept has the greatest present buildDate.  Also,
`artX1` (gpu `a-b`, variant `c`) and `artX2` (gpu `a`, variant `b-c`) are
different `(platform, gpuTag, variant)` tuples yet share one string group
key, so only one survives — while the claim's tuple grouping would keep
both. -/
theorem C3_counterexample :
    filterArtifacts [artN, artB] latestOnly = [artN] ∧
    (filterArtifacts [artX1, artX2] latestOnly).length = 1 ∧ artN ≠ artB := by
  decide

/-- Claim C4, counterexample.  On `therock-dist-1.2.3-a-b.tar.gz` the
version token is at index 0, the middle region is empty, and the parser
returns a record with an empty gpuTag and an undefined (`none`) variant
instead of dropping the entry.  On `therock-dist-linux-gfx1100-1.2..tar.gz`
the returned coreVersion is `1.2.`, which does not match
`^\d+\.\d+\.\d+$`. -/
theorem C4_counterexample :
    parseArtifactInfo "u" "therock-dist-1.2.3-a-b.tar.gz" = some artBad ∧
    artBad.gpu = "" ∧ artBad.variant = none ∧
    (parseArtifactInfo "u" "therock-dist-linux-gfx1100-1.2..tar.gz").map
      (isCoreVersion ∘ Artifact.rocmVersion) = some false := by
  decide

/-- Claim C5, counterexample.  With a detected profile whose family-tag set
is empty, the filter still applies the platform test: a windows artifact is
dropped for a linux profile, so the filter does not return all artifacts. -/
theorem C5_counterexample :
    findCompatibleArtifacts [artW] sysEmptyFam noOpts = [] ∧
    [artW] ≠ ([] : List Artifact) := by
  decide

/-- Claim C6, counterexample.  The collapse is order-dependent: with the
date-less `artN` and the dated `artB` in one group, the permutation
`[artN, artB]` keeps `artN` while `[artB, artN]` keeps `artB`, two
different result sets. -/
theorem C6_counterexample :
    filterArtifacts [artN, artB] latestOnly = [artN] ∧
    filterArtifacts [artB, artN] latestOnly = [artB] ∧ artN ≠ artB := by
  decide

/-! ### Order facts about the JavaScript string comparison -/

theorem charToNat_inj {a b : Char} (h : a.toNat = b.toNat) : a = b := by
  apply Char.ext
  have hv : a.val.toNat = b.val.toNat := h
  cases hva : a.val
  cases hvb : b.val
  rw [hva, hvb] at hv
  simp only [UInt32.toNat] at hv
  congr 1
  exact BitVec.toNat_eq.mpr hv

theorem jsStrLtL_irrefl (a : List Char) : jsStrLtL a a = false := by
  induction a with
  | nil => rfl
  | cons c cs ih => simp [jsStrLtL, ih]

theorem jsStrLtL_trans :
    ∀ {a b c : List Char}, jsStrLtL a b = true → jsStrLtL b c = true →
      jsStrLtL a c = true := by
  intro a
  induction a with
  | nil =>
    intro b c hab hbc
    cases b with
    | nil => simp [jsStrLtL] at hab
    | cons y ys =>
      cases c with
      | nil => simp [jsStrLtL] at hbc
      | cons z zs => simp [jsStrLtL]
  | cons x xs ih =>
    intro b c hab hbc
    cases b with
    | nil => simp [jsStrLtL] at hab
    | cons y ys =>
      cases c with
      | nil => simp [jsStrLtL] at hbc
      | cons z zs =>
        simp only [jsStrLtL] at hab hbc ⊢
        by_cases hxy : x = y
        · subst hxy
          rw [if_pos rfl] at hab
          by_cases hyz : x = z
          · subst hyz
            rw [if_pos rfl] at hbc ⊢
            exact ih hab hbc
          · rw [if_neg hyz] at hbc ⊢
            exact hbc
        · rw [if_neg hxy] at hab
          have hxy' : x.toNat < y.toNat := of_decide_eq_true hab
          by_cases hyz : y = z
          · subst hyz
            rw [if_neg hxy]
            exact decide_eq_true hxy'
          · have hbc' : decide (y.toNat < z.toNat) = true := by
              rwa [if_neg hyz] at hbc
            have hyz' : y.toNat < z.toNat := of_decide_eq_true hbc'
            have hxz' : x.toNat < z.toNat := lt_trans hxy' hyz'
            have hxz : ¬x = z := fun he => absurd hxz' (by rw [he]; exact lt_irrefl _)
            rw [if_neg hxz]
            exact decide_eq_true hxz'

theorem jsStrLtL_conn :
    ∀ {a b : List Char}, jsStrLtL a b = false → jsStrLtL b a = false → a = b := by
  intro a
  induction a with
  | nil =>
    intro b hab _
    cases b with
    | nil => rfl
    | cons y ys => simp [jsStrLtL] at hab
  | cons x xs ih =>
    intro b hab hba
    cases b with
    | nil => simp [jsStrLtL] at hba
    | cons y ys =>
      simp only [jsStrLtL] at hab hba
      by_cases hxy : x = y
      · subst hxy
        rw [if_pos rfl] at hab hba
        rw [ih hab hba]
      · rw [if_neg hxy] at hab
        rw [if_neg (fun he => hxy he.symm)] at hba
        have h1 : ¬x.toNat < y.toNat := of_decide_eq_false hab
        have h2 : ¬y.toNat < x.toNat := of_decide_eq_false hba
        exact absurd (charToNat_inj (Nat.le_antisymm (Nat.not_lt.mp h2) (Nat.not_lt.mp h1))) hxy

theorem jsStrLt_irrefl (s : String) : jsStrLt s s = false :=
  jsStrLtL_irrefl s.toList

theorem jsStrLt_trans {a b c : String} (h1 : jsStrLt a b = true)
    (h2 : jsStrLt b c = true) : jsStrLt a c = true :=
  jsStrLtL_trans h1 h2

theorem jsStrLt_conn {a b : String} (h1 : jsStrLt a b = false)
    (h2 : jsStrLt b a = false) : a = b :=
  String.toList_inj.mp (jsStrLtL_conn h1 h2)

theorem jsStrLt_asym {a b : String} (h : jsStrLt a b = true) :
    jsStrLt b a = false := by
  cases hba : jsStrLt b a with
  | false => rfl
  | true => exact absurd (jsStrLt_trans h hba) (by rw [jsStrLt_irrefl]; exact fun he => nomatch he)

/-! ### Structure of the grouping loop -/

theorem mem_snd_upd {k : String} {a b : Artifact}
    {m : List (String × Artifact)} (h : b ∈ (upd k a m).map Prod.snd) :
    b ∈ m.map Prod.snd ∨ b = a := by
  induction m with
  | nil =>
    simp only [upd, List.map_cons, List.map_nil, List.mem_singleton] at h
    exact Or.inr h
  | cons p rest ih =>
    obtain ⟨k', c⟩ := p
    simp only [upd] at h
    by_cases hk : k' = k
    · rw [if_pos hk] at h
      simp only [List.map_cons, List.mem_cons] at h
      rcases h with h | h
      · by_cases hb : jsDateBeats a.buildDate c.buildDate = true
        · rw [if_pos hb] at h
          exact Or.inr h
        · rw [if_neg hb] at h
          exact Or.inl (by simp [h])
      · exact Or.inl (by simp [h])
    · rw [if_neg hk] at h
      simp only [List.map_cons, List.mem_cons] at h
      rcases h with h | h
      · exact Or.inl (by simp [h])
      · rcases ih h with h' | h'
        · exact Or.inl (by simp [List.mem_cons]; right; simpa using h')
        · exact Or.inr h'

theorem mem_snd_buildMap (key : Artifact → String) :
    ∀ (l : List Artifact) (m : List (String × Artifact)) (b : Artifact),
      b ∈ (buildMap key l m).map Prod.snd → b ∈ m.map Prod.snd ∨ b ∈ l := by
  intro l
  induction l with
  | nil => intro m b h; exact Or.inl h
  | cons a rest ih =>
    intro m b h
    rcases ih (upd (key a) a m) b h with h' | h'
    · rcases mem_snd_upd h' with h'' | h''
      · exact Or.inl h''
      · exact Or.inr (by simp [h''])
    · exact Or.inr (List.mem_cons_of_mem a h')

theorem mem_collapse {key : Artifact → String} {l : List Artifact}
    {b : Artifact} (h : b ∈ collapseLatest key l) : b ∈ l := by
  rcases mem_snd_buildMap key l [] b h with h' | h'
  · simp at h'
  · exact h'

theorem lookupA_upd (k' k : String) (a : Artifact)
    (m : List (String × Artifact)) :
    lookupA k' (upd k a m) =
      if k' = k then step (lookupA k m) a else lookupA k' m := by
  induction m with
  | nil =>
    by_cases h : k' = k
    · subst h; simp [upd, lookupA, step]
    · simp only [upd, lookupA]
      rw [if_neg (fun he : k = k' => h he.symm), if_neg h]
  | cons p rest ih =>
    obtain ⟨k'', c⟩ := p
    by_cases h2 : k'' = k
    · subst h2
      by_cases h1 : k' = k''
      · subst h1
        simp only [upd, if_pos rfl, lookupA, step]
        by_cases hb : jsDateBeats a.buildDate c.buildDate = true <;> simp [hb]
      · simp only [upd, if_pos rfl, lookupA,
          if_neg (fun he : k'' = k' => h1 he.symm), if_neg h1]
    · by_cases h1 : k'' = k'
      · subst h1
        simp only [upd, if_neg h2]
        simp [lookupA]
      · simp only [upd, if_neg h2, lookupA, if_neg h1, ih]

theorem lookupA_buildMap (key : Artifact → String) :
    ∀ (l : List Artifact) (m : List (String × Artifact)) (k : String),
      lookupA k (buildMap key l m) =
        bestOf (lookupA k m) (l.filter fun a => decide (key a = k)) := by
  intro l
  induction l with
  | nil => intro m k; rfl
  | cons a rest ih =>
    intro m k
    show lookupA k (buildMap key rest (upd (key a) a m)) = _
    rw [ih]
    by_cases hk : key a = k
    · subst hk
      rw [lookupA_upd]
      simp [bestOf, List.filter_cons]
    · have h1 : lookupA k (upd (key a) a m) = lookupA k m := by
        rw [lookupA_upd, if_neg (fun he : k = key a => hk he.symm)]
      rw [h1]
      simp [List.filter_cons, hk]

theorem keyed_upd {key : Artifact → String} {m : List (String × Artifact)}
    (hm : ∀ p ∈ m, key p.2 = p.1) (a : Artifact) :
    ∀ p ∈ upd (key a) a m, key p.2 = p.1 := by
  induction m with
  | nil =>
    intro p hp
    simp only [upd, List.mem_singleton] at hp
    subst hp; rfl
  | cons q rest ih =>
    obtain ⟨k', c⟩ := q
    intro p hp
    simp only [upd] at hp
    by_cases hk : k' = key a
    · rw [if_pos hk] at hp
      rcases List.mem_cons.mp hp with h | h
      · subst h
        by_cases hb : jsDateBeats a.buildDate c.buildDate = true
        · rw [if_pos hb]; exact hk.symm
        · rw [if_neg hb]; exact hm ⟨k', c⟩ (List.mem_cons_self _ _)
      · exact hm p (List.mem_cons_of_mem _ h)
    · rw [if_neg hk] at hp
      rcases List.mem_cons.mp hp with h | h
      · subst h; exact hm ⟨k', c⟩ (List.mem_cons_self _ _)
      · exact ih (fun q hq => hm q (List.mem_cons_of_mem _ hq)) p h

theorem keyed_buildMap (key : Artifact → String) :
    ∀ (l : List Artifact) (m : List (String × Artifact)),
      (∀ p ∈ m, key p.2 = p.1) → ∀ p ∈ buildMap key l m, key p.2 = p.1 := by
  intro l
  induction l with
  | nil => intro m hm; exact hm
  | cons a rest ih =>
    intro m hm
    exact ih (upd (key a) a m) (keyed_upd hm a)

theorem fst_upd_of_mem {k : String} {m : List (String × Artifact)}
    (h : k ∈ m.map Prod.fst) (a : Artifact) :
    (upd k a m).map Prod.fst = m.map Prod.fst := by
  induction m with
  | nil => simp at h
  | cons q rest ih =>
    obtain ⟨k', c⟩ := q
    by_cases hk : k' = k
    · simp [upd, hk]
    · have h' : k ∈ rest.map Prod.fst := by
        rcases List.mem_cons.mp h with h'' | h''
        · exact absurd h''.symm hk
        · exact h''
      simp [upd, hk, ih h']

theorem fst_upd_of_not_mem {k : String} {m : List (String × Artifact)}
    (h : k ∉ m.map Prod.fst) (a : Artifact) :
    (upd k a m).map Prod.fst = m.map Prod.fst ++ [k] := by
  induction m with
  | nil => simp [upd]
  | cons q rest ih =>
    obtain ⟨k', c⟩ := q
    have hk : ¬k' = k := fun he => h (by simp [he])
    have h' : k ∉ rest.map Prod.fst := fun hr => h (by simp [hr])
    simp [upd, hk, ih h']

theorem nodup_fst_upd {k : String} {a : Artifact}
    {m : List (String × Artifact)} (h : (m.map Prod.fst).Nodup) :
    ((upd k a m).map Prod.fst).Nodup := by
  by_cases hm : k ∈ m.map Prod.fst
  · rw [fst_upd_of_mem hm a]; exact h
  · rw [fst_upd_of_not_mem hm a]
    simp [List.nodup_append, h, hm]

theorem nodup_fst_buildMap (key : Artifact → String) :
    ∀ (l : List Artifact) (m : List (String × Artifact)),
      (m.map Prod.fst).Nodup → ((buildMap key l m).map Prod.fst).Nodup := by
  intro l
  induction l with
  | nil => intro m hm; exact hm
  | cons a rest ih => intro m hm; exact ih _ (nodup_fst_upd hm)

theorem lookupA_of_mem {k : String} {b : Artifact}
    {m : List (String × Artifact)} (hnd : (m.map Prod.fst).Nodup)
    (h : (k, b) ∈ m) : lookupA k m = some b := by
  induction m with
  | nil => simp at h
  | cons q rest ih =>
    obtain ⟨k', c⟩ := q
    rcases List.mem_cons.mp h with h' | h'
    · obtain ⟨h1, h2⟩ := Prod.mk.injEq .. ▸ h'.symm
      simp [lookupA, h1.symm, h2.symm]
    · have hk : ¬k' = k := by
        intro he
        subst he
        have : k' ∈ rest.map Prod.fst := by
          exact List.mem_map.mpr ⟨(k', b), h', rfl⟩
        exact (List.nodup_cons.mp (by simpa using hnd)).1 this
      simp only [lookupA, if_neg hk]
      exact ih (List.nodup_cons.mp (by simpa using hnd)).2 h'

theorem mem_of_lookupA {k : String} {b : Artifact}
    {m : List (String × Artifact)} (h : lookupA k m = some b) : (k, b) ∈ m := by
  induction m with
  | nil => simp [lookupA] at h
  | cons q rest ih =>
    obtain ⟨k', c⟩ := q
    simp only [lookupA] at h
    by_cases hk : k' = k
    · rw [if_pos hk] at h
      subst hk
      obtain rfl : c = b := Option.some.inj h
      exact List.mem_cons_self _ _
    · rw [if_neg hk] at h
      exact List.mem_cons_of_mem _ (ih h)

/-- Membership in the collapsed list is exactly: the per-key fold over the
artifacts hitting this artifact's key ends on this artifact. -/
theorem mem_collapse_iff (key : Artifact → String) (l : List Artifact)
    (b : Artifact) :
    b ∈ collapseLatest key l ↔
      bestOf none (l.filter fun a => decide (key a = key b)) = some b := by
  have hnd : ((buildMap key l []).map Prod.fst).Nodup :=
    nodup_fst_buildMap key l [] (by simp)
  have hkeyed : ∀ p ∈ buildMap key l [], key p.2 = p.1 :=
    keyed_buildMap key l [] (by simp)
  constructor
  · intro h
    obtain ⟨p, hp, hpb⟩ := List.mem_map.mp h
    have hk : p.1 = key b := by rw [← hkeyed p hp, hpb]
    have : (key b, b) ∈ buildMap key l [] := by
      have := hp
      rw [← hk]
      obtain ⟨p1, p2⟩ := p
      cases hpb
      exact hp
    have hl : lookupA (key b) (buildMap key l []) = some b :=
      lookupA_of_mem hnd this
    rw [lookupA_buildMap key l [] (key b)] at hl
    exact hl
  · intro h
    have hl : lookupA (key b) (buildMap key l []) = some b := by
      rw [lookupA_buildMap key l [] (key b)]
      exact h
    have := mem_of_lookupA hl
    exact List.mem_map.mpr ⟨(key b, b), this, rfl⟩

theorem jsDateBeats_none (d : Option String) : jsDateBeats d none = false := by
  cases d <;> rfl

theorem bestOf_none_date {c : Artifact} (hc : c.buildDate = none) :
    ∀ l : List Artifact, bestOf (some c) l = some c := by
  intro l
  induction l with
  | nil => rfl
  | cons a rest ih =>
    show bestOf (step (some c) a) rest = some c
    have hstep : step (some c) a = some c := by
      simp only [step, hc, jsDateBeats_none]
      rfl
    rw [hstep]
    exact ih

theorem bestOf_mem :
    ∀ (l : List Artifact) (cur : Option Artifact) (b : Artifact),
      bestOf cur l = some b → cur = some b ∨ b ∈ l := by
  intro l
  induction l with
  | nil => intro cur b h; exact Or.inl h
  | cons a rest ih =>
    intro cur b h
    rcases ih (step cur a) b h with h' | h'
    · cases cur with
      | none =>
        obtain rfl : a = b := Option.some.inj h'
        exact Or.inr (List.mem_cons_self _ _)
      | some c =>
        simp only [step] at h'
        by_cases hb : jsDateBeats a.buildDate c.buildDate = true
        · rw [if_pos hb] at h'
          obtain rfl : a = b := Option.some.inj h'
          exact Or.inr (List.mem_cons_self _ _)
        · rw [if_neg hb] at h'
          exact Or.inl h'
    · exact Or.inr (List.mem_cons_of_mem _ h')

/-- If the per-key fold ends on a dated artifact, that date is maximal among
the dates of the folded artifacts and of the starting value. -/
theorem bestOf_max :
    ∀ (l : List Artifact) (cur : Option Artifact) (b : Artifact) (d : String),
      bestOf cur l = some b → b.buildDate = some d →
        (∀ a ∈ l, ∀ d', a.buildDate = some d' → jsStrLt d d' = false) ∧
        (∀ c, cur = some c → ∀ d', c.buildDate = some d' →
          jsStrLt d d' = false) := by
  intro l
  induction l with
  | nil =>
    intro cur b d h hd
    refine ⟨by simp, ?_⟩
    intro c hc d' hd'
    rw [hc] at h
    obtain rfl : c = b := Option.some.inj h
    rw [hd] at hd'
    obtain rfl : d = d' := Option.some.inj hd'
    exact jsStrLt_irrefl d
  | cons a rest ih =>
    intro cur b d h hd
    have h' : bestOf (step cur a) rest = some b := h
    obtain ⟨hrest, hstep'⟩ := ih (step cur a) b d h' hd
    have facts : (∀ d', a.buildDate = some d' → jsStrLt d d' = false) ∧
        (∀ c, cur = some c → ∀ d', c.buildDate = some d' →
          jsStrLt d d' = false) := by
      cases cur with
      | none =>
        refine ⟨fun d' hd' => hstep' a rfl d' hd', fun c hc => nomatch hc⟩
      | some c0 =>
        by_cases hb : jsDateBeats a.buildDate c0.buildDate = true
        · have hstep : step (some c0) a = some a := by simp only [step, if_pos hb]
          cases hda : a.buildDate with
          | none => simp [jsDateBeats, hda] at hb
          | some da =>
            cases hdc : c0.buildDate with
            | none => simp [jsDateBeats, hda, hdc] at hb
            | some dc0 =>
              have hlt : jsStrLt dc0 da = true := by
                simpa [jsDateBeats, hda, hdc] using hb
              have hbound : jsStrLt d da = false := by
                rw [hstep] at hstep'
                exact hstep' a rfl da hda
              constructor
              · intro d' hd'
                obtain rfl : da = d' := Option.some.inj hd'
                exact hbound
              · intro c hc d' hd'
                obtain rfl : c0 = c := Option.some.inj hc
                rw [hdc] at hd'
                obtain rfl : dc0 = d' := Option.some.inj hd'
                cases hx : jsStrLt d dc0 with
                | false => rfl
                | true =>
                  have : jsStrLt d da = true := jsStrLt_trans hx hlt
                  rw [this] at hbound
                  exact absurd hbound (by simp)
        · have hstep : step (some c0) a = some c0 := by simp only [step, if_neg hb]
          rw [hstep] at hstep'
          have fact2 : ∀ c, some c0 = some c → ∀ d', c.buildDate = some d' →
              jsStrLt d d' = false := by
            intro c hc d' hd'
            obtain rfl : c0 = c := Option.some.inj hc
            exact hstep' c0 rfl d' hd'
          refine ⟨?_, fact2⟩
          intro da hda
          cases hdc : c0.buildDate with
          | none =>
            rw [hstep, bestOf_none_date hdc rest] at h'
            obtain rfl : c0 = b := Option.some.inj h'
            rw [hd] at hdc
            exact absurd hdc (by simp)
          | some dc0 =>
            have hnb : jsStrLt dc0 da = false := by
              have := hb
              simp only [jsDateBeats, hda, hdc] at this
              cases hx : jsStrLt dc0 da with
              | false => rfl
              | true => exact absurd hx this
            have hc0 : jsStrLt d dc0 = false := fact2 c0 rfl dc0 hdc
            cases hx : jsStrLt d da with
            | false => rfl
            | true =>
              by_cases hdd : da = dc0
              · subst hdd
                rw [hx] at hc0
                exact absurd hc0 (by simp)
              · have hy : jsStrLt da dc0 = true := by
                  cases hy' : jsStrLt da dc0 with
                  | true => rfl
                  | false => exact absurd (jsStrLt_conn hy' hnb) hdd
                have : jsStrLt d dc0 = true := jsStrLt_trans hx hy
                rw [this] at hc0
                exact absurd hc0 (by simp)
    constructor
    · intro x hx d' hd'
      rcases List.mem_cons.mp hx with h'' | h''
      · subst h''; exact facts.1 d' hd'
      · exact hrest x h'' d' hd'
    · exact facts.2

/-- If a dated artifact strictly dominates (by date) everything else hitting
its key, the per-key fold ends on it, wherever it sits. -/
theorem bestOf_dom :
    ∀ (l : List Artifact) (cur : Option Artifact) (b : Artifact) (db : String),
      b.buildDate = some db →
      (b ∈ l ∨ cur = some b) →
      (∀ a ∈ l, a ≠ b → ∃ da, a.buildDate = some da ∧ jsStrLt da db = true) →
      (∀ c, cur = some c → c ≠ b →
        ∃ dc, c.buildDate = some dc ∧ jsStrLt dc db = true) →
      bestOf cur l = some b := by
  intro l
  induction l with
  | nil =>
    intro cur b db _ hmem _ _
    rcases hmem with h | h
    · simp at h
    · exact h
  | cons a rest ih =>
    intro cur b db hdb hmem hA hcur
    show bestOf (step cur a) rest = some b
    have hA' : ∀ x ∈ rest, x ≠ b →
        ∃ dx, x.buildDate = some dx ∧ jsStrLt dx db = true :=
      fun x hx => hA x (List.mem_cons_of_mem _ hx)
    have hmem' : b ∈ rest ∨ step cur a = some b := by
      by_cases hab : a = b
      · subst hab
        right
        cases cur with
        | none => rfl
        | some c =>
          by_cases hcb : c = a
          · subst hcb
            simp [step, jsDateBeats, hdb, jsStrLt_irrefl]
          · obtain ⟨dc, hdc, hlt⟩ := hcur c rfl hcb
            simp [step, jsDateBeats, hdb, hdc, hlt]
      · rcases hmem with h | h
        · rcases List.mem_cons.mp h with h' | h'
          · exact absurd h'.symm hab
          · exact Or.inl h'
        · right
          rw [h]
          obtain ⟨da, hda, hlt⟩ := hA a (List.mem_cons_self _ _) hab
          simp [step, jsDateBeats, hda, hdb, jsStrLt_asym hlt]
    have hcur' : ∀ c, step cur a = some c → c ≠ b →
        ∃ dc, c.buildDate = some dc ∧ jsStrLt dc db = true := by
      intro c hc hcb
      cases cur with
      | none =>
        obtain rfl : a = c := Option.some.inj hc
        exact hA a (List.mem_cons_self _ _) hcb
      | some c0 =>
        simp only [step] at hc
        by_cases hbeat : jsDateBeats a.buildDate c0.buildDate = true
        · rw [if_pos hbeat] at hc
          obtain rfl : a = c := Option.some.inj hc
          exact hA a (List.mem_cons_self _ _) hcb
        · rw [if_neg hbeat] at hc
          obtain rfl : c0 = c := Option.some.inj hc
          exact hcur c0 rfl hcb
    exact ih (step cur a) b db hdb hmem' hA' hcur'

/-- With all dates present and distinct within each group, membership in the
collapse is exactly strict date-domination of one's group. -/
theorem mem_collapse_char (key : Artifact → String) (l : List Artifact)
    (hdated : ∀ a ∈ l, a.buildDate.isSome = true)
    (hinj : ∀ a ∈ l, ∀ a' ∈ l, key a = key a' →
      a.buildDate = a'.buildDate → a = a')
    (b : Artifact) :
    b ∈ collapseLatest key l ↔
      b ∈ l ∧ ∀ a ∈ l, key a = key b → a ≠ b →
        ∃ da db, a.buildDate = some da ∧ b.buildDate = some db ∧
          jsStrLt da db = true := by
  rw [mem_collapse_iff]
  constructor
  · intro h
    have hbmem : b ∈ l := by
      rcases bestOf_mem _ none b h with h' | h'
      · exact nomatch h'
      · exact (List.mem_filter.mp h').1
    refine ⟨hbmem, ?_⟩
    intro a ha hk hab
    obtain ⟨db, hdb⟩ := Option.isSome_iff_exists.mp (hdated b hbmem)
    obtain ⟨da, hda⟩ := Option.isSome_iff_exists.mp (hdated a ha)
    refine ⟨da, db, hda, hdb, ?_⟩
    have hmax := (bestOf_max _ none b db h hdb).1 a
      (List.mem_filter.mpr ⟨ha, by simp [hk]⟩) da hda
    have hne : ¬da = db := by
      intro he
      exact hab (hinj a ha b hbmem hk (by rw [hda, hdb, he]))
    cases hx : jsStrLt da db with
    | true => rfl
    | false => exact absurd (jsStrLt_conn hx hmax) hne
  · rintro ⟨hbmem, hdom⟩
    obtain ⟨db, hdb⟩ := Option.isSome_iff_exists.mp (hdated b hbmem)
    apply bestOf_dom _ none b db hdb
    · exact Or.inl (List.mem_filter.mpr ⟨hbmem, by simp⟩)
    · intro a ha hab
      obtain ⟨ha', hk'⟩ := List.mem_filter.mp ha
      have hk : key a = key b := by simpa using hk'
      obtain ⟨da, db', hda, hdb', hlt⟩ := hdom a ha' hk hab
      rw [hdb] at hdb'
      obtain rfl : db = db' := Option.some.inj hdb'
      exact ⟨da, hda, hlt⟩
    · intro c hc
      exact nomatch hc

theorem upd_of_not_mem {k : String} {m : List (String × Artifact)}
    (h : k ∉ m.map Prod.fst) (a : Artifact) : upd k a m = m ++ [(k, a)] := by
  induction m with
  | nil => rfl
  | cons q rest ih =>
    obtain ⟨k', c⟩ := q
    have hk : ¬k' = k := fun he => h (by simp [he])
    have h' : k ∉ rest.map Prod.fst := fun hr => h (by simp [hr])
    simp [upd, hk, ih h']

theorem buildMap_of_nodup (key : Artifact → String) :
    ∀ (l : List Artifact) (m : List (String × Artifact)),
      (l.map key).Nodup → (∀ a ∈ l, key a ∉ m.map Prod.fst) →
      buildMap key l m = m ++ l.map fun a => (key a, a) := by
  intro l
  induction l with
  | nil => intro m _ _; simp [buildMap]
  | cons a rest ih =>
    intro m hnd hdisj
    show buildMap key rest (upd (key a) a m) = _
    rw [upd_of_not_mem (hdisj a (List.mem_cons_self _ _)) a]
    rw [ih (m ++ [(key a, a)])
      (by simpa using (List.nodup_cons.mp (by simpa using hnd)).2)
      ?_]
    · simp
    · intro x hx
      simp only [List.map_append, List.mem_append]
      rintro (hmem | hmem)
      · exact hdisj x (List.mem_cons_of_mem _ hx) hmem
      · have : key x = key a := by simpa using hmem
        have hne : key a ∉ rest.map key :=
          (List.nodup_cons.mp (by simpa using hnd)).1
        exact hne (this ▸ List.mem_map.mpr ⟨x, hx, rfl⟩)

theorem collapse_of_nodup_keys {key : Artifact → String} {l : List Artifact}
    (h : (l.map key).Nodup) : collapseLatest key l = l := by
  unfold collapseLatest
  rw [buildMap_of_nodup key l [] h (by simp)]
  simp only [List.nil_append, List.map_map]
  have : (Prod.snd ∘ fun a : Artifact => (key a, a)) = id := rfl
  rw [this, List.map_id]

theorem collapse_keys_eq (key : Artifact → String) (l : List Artifact) :
    (collapseLatest key l).map key = (buildMap key l []).map Prod.fst := by
  unfold collapseLatest
  rw [List.map_map]
  exact List.map_congr_left fun p hp => keyed_buildMap key l [] (by simp) p hp

/-! ### Substring and filter-stage facts -/

theorem hasPre_iff (sub l : List Char) :
    hasPre sub l = true ↔ ∃ post, l = sub ++ post := by
  unfold hasPre
  rw [decide_eq_true_eq]
  constructor
  · intro h
    refine ⟨l.drop sub.length, ?_⟩
    conv_lhs => rw [← List.take_append_drop sub.length l]
    rw [h]
  · rintro ⟨post, rfl⟩
    exact List.take_left sub post

theorem jsIncludesL_iff (sub : List Char) :
    ∀ l : List Char, jsIncludesL sub l = true ↔ ∃ pre post, l = pre ++ sub ++ post := by
  intro l
  induction l with
  | nil =>
    simp only [jsIncludesL, List.isEmpty_iff]
    constructor
    · rintro rfl; exact ⟨[], [], rfl⟩
    · rintro ⟨pre, post, h⟩
      rcases List.append_eq_nil.mp (List.append_eq_nil.mp h.symm).1 with ⟨-, h2⟩
      exact h2
  | cons c rest ih =>
    simp only [jsIncludesL, Bool.or_eq_true]
    constructor
    · rintro (h | h)
      · obtain ⟨post, hpost⟩ := (hasPre_iff sub (c :: rest)).mp h
        exact ⟨[], post, by simpa using hpost⟩
      · obtain ⟨pre, post, hpp⟩ := ih.mp h
        exact ⟨c :: pre, post, by simp [hpp]⟩
    · rintro ⟨pre, post, hpp⟩
      cases pre with
      | nil =>
        exact Or.inl ((hasPre_iff sub (c :: rest)).mpr ⟨post, by simpa using hpp⟩)
      | cons c' pre' =>
        have hc : c' = c := by
          have := congrArg (List.head?) hpp
          simpa using this.symm
        right
        apply ih.mpr
        refine ⟨pre', post, ?_⟩
        have := congrArg (List.tail) hpp
        simpa using this

theorem optFilter_sub {o : Option String} {f : String → Artifact → Bool}
    {l : List Artifact} {a : Artifact} (h : a ∈ optFilter o f l) : a ∈ l := by
  cases o with
  | none => exact h
  | some v =>
    simp only [optFilter] at h
    by_cases hv : v = ""
    · rwa [if_pos hv] at h
    · rw [if_neg hv] at h
      exact (List.mem_filter.mp h).1

theorem asString_ne_empty {l : List Char} (h : l ≠ []) : l.asString ≠ "" := by
  intro he
  exact h (congrArg String.toList he)

theorem getD_mem {l : List (List Char)} {j : Nat} (h : j < l.length) :
    l.getD j [] ∈ l := by
  rw [List.getD_eq_getElem l [] h]
  exact List.getElem_mem h

/-- Claim C9.  The latest-per-configuration collapse is idempotent: the
collapse leaves a list whose group keys are pairwise distinct, and
collapsing such a list reinserts every artifact under its fresh key
unchanged, in order. -/
theorem C9_latest_idempotent (l : List Artifact) :
    filterArtifacts (filterArtifacts l latestOnly) latestOnly =
      filterArtifacts l latestOnly := by
  show collapseLatest gKey3 (collapseLatest gKey3 l) = collapseLatest gKey3 l
  apply collapse_of_nodup_keys
  rw [collapse_keys_eq]
  exact nodup_fst_buildMap gKey3 l [] (by simp)

/-- Claim C10.  Neither `filterArtifacts` nor `findCompatibleArtifacts`
fabricates or modifies records: every artifact returned, under every
combination of filters, options or system profile, is an element of the
input list. -/
theorem C10_no_fabrication (l : List Artifact) (F : RocmFilters)
    (sys : SystemInfo) (opts : CompatOptions) (a : Artifact) :
    (a ∈ filterArtifacts l F → a ∈ l) ∧
    (a ∈ findCompatibleArtifacts l sys opts → a ∈ l) := by
  constructor
  · intro h
    simp only [filterArtifacts] at h
    by_cases hl : F.latest = true
    · rw [if_pos hl] at h
      exact optFilter_sub (optFilter_sub (optFilter_sub (optFilter_sub
        (mem_collapse h))))
    · rw [if_neg hl] at h
      exact optFilter_sub (optFilter_sub (optFilter_sub (optFilter_sub h)))
  · intro h
    simp only [findCompatibleArtifacts] at h
    by_cases hd : sys.detected = false
    · rwa [if_pos hd] at h
    · rw [if_neg hd] at h
      by_cases hl : opts.latest = true
      · rw [if_pos hl] at h
        exact (List.mem_filter.mp
          (optFilter_sub (optFilter_sub (mem_collapse h)))).1
      · rw [if_neg hl] at h
        exact (List.mem_filter.mp (optFilter_sub (optFilter_sub h))).1

/-- Claim C10, witness at concrete inputs. -/
theorem C10_witness : artB ∈ [artA, artB] ∧ artB ∈ [artB, artW] :=
  ⟨(C10_no_fabrication [artA, artB] latestOnly sys110 optsLatest artB).1
      (by decide),
   (C10_no_fabrication [artB, artW] latestOnly sys110 optsLatest artB).2
      (by decide)⟩

/-- Claim C3, amended.  The collapse groups by the concatenated string key
`platform-gpu-variant`; every kept artifact comes from the input, and a
kept artifact that has a present buildDate has the lexicographically
greatest date in its group (dates compared as JavaScript strings).  When
the first artifact of a group has an absent buildDate it is kept instead —
a dated artifact never displaces it, because `date > null` is false in
JavaScript — so the conclusion is conditional on the kept artifact being
dated. -/
theorem C3_amended (l : List Artifact) (b : Artifact)
    (hb : b ∈ filterArtifacts l latestOnly) :
    b ∈ l ∧ ∀ d, b.buildDate = some d → ∀ a ∈ l, gKey3 a = gKey3 b →
      ∀ d', a.buildDate = some d' → jsStrLe d' d = true := by
  have hb' : b ∈ collapseLatest gKey3 l := hb
  constructor
  · exact mem_collapse hb'
  · intro d hd a ha hk d' hd'
    have h := (mem_collapse_iff gKey3 l b).mp hb'
    have hmax := (bestOf_max _ none b d h hd).1 a
      (List.mem_filter.mpr ⟨ha, by simp [hk]⟩) d' hd'
    simp [jsStrLe, hmax]

/-- Claim C3, witness at concrete inputs. -/
theorem C3_witness :
    artB ∈ [artA, artB] ∧ jsStrLe "2025-10-20" "2025-10-30" = true := by
  have h := C3_amended [artA, artB] artB (by decide)
  exact ⟨h.1, h.2 "2025-10-30" rfl artA (by decide) (by decide) "2025-10-20" rfl⟩

/-- Claim C6, amended.  When every artifact has a present buildDate and no
two artifacts of one group share a date, the collapse is order-independent
as a set: for any permutation of the input, the collapsed results have the
same members.  Without those hypotheses the collapse is order-dependent
(ties and date-less artifacts are resolved by first-seen order). -/
theorem C6_amended (l l' : List Artifact) (hp : l.Perm l')
    (hdated : ∀ a ∈ l, a.buildDate.isSome = true)
    (hinj : ∀ a ∈ l, ∀ a' ∈ l, gKey3 a = gKey3 a' →
      a.buildDate = a'.buildDate → a = a') :
    ∀ b, b ∈ filterArtifacts l latestOnly ↔
      b ∈ filterArtifacts l' latestOnly := by
  intro b
  have hdated' : ∀ a ∈ l', a.buildDate.isSome = true :=
    fun a ha => hdated a (hp.mem_iff.mpr ha)
  have hinj' : ∀ a ∈ l', ∀ a' ∈ l', gKey3 a = gKey3 a' →
      a.buildDate = a'.buildDate → a = a' :=
    fun a ha a' ha' => hinj a (hp.mem_iff.mpr ha) a' (hp.mem_iff.mpr ha')
  show b ∈ collapseLatest gKey3 l ↔ b ∈ collapseLatest gKey3 l'
  rw [mem_collapse_char gKey3 l hdated hinj b,
    mem_collapse_char gKey3 l' hdated' hinj' b]
  constructor
  · rintro ⟨hm, hdom⟩
    exact ⟨hp.mem_iff.mp hm, fun a ha => hdom a (hp.mem_iff.mpr ha)⟩
  · rintro ⟨hm, hdom⟩
    exact ⟨hp.mem_iff.mpr hm, fun a ha => hdom a (hp.mem_iff.mp ha)⟩

/-- Claim C6, witness at concrete inputs. -/
theorem C6_witness :
    artB ∈ filterArtifacts [artA, artB] latestOnly ↔
      artB ∈ filterArtifacts [artB, artA] latestOnly :=
  C6_amended [artA, artB] [artB, artA] (List.Perm.swap artB artA [])
    (by decide) (by decide) artB

/-- Undetected system profile. -/
def sysUndet : SystemInfo :=
  { platform := "linux", rocmGpuFamilies := [], detected := false }

theorem findCompat_noOpts (arts : List Artifact) (sys : SystemInfo)
    (hdet : sys.detected = true) :
    findCompatibleArtifacts arts sys noOpts =
      arts.filter (compatPred sys) := by
  have hnd : ¬sys.detected = false := by
    rw [hdet]; exact fun he => nomatch he
  simp only [findCompatibleArtifacts, if_neg hnd, noOpts, optFilter]
  rw [if_neg (fun he : false = true => nomatch he)]

/-- Claim C5, amended.  Only an undetected profile makes the filter return
all artifacts (with a warning).  A detected profile with an empty
family-tag set skips the gpu-family check but still applies the platform
test, so the result is the platform-matching artifacts, not the whole
catalog. -/
theorem C5_amended (arts : List Artifact) (sys : SystemInfo)
    (opts : CompatOptions) :
    (sys.detected = false → findCompatibleArtifacts arts sys opts = arts) ∧
    (sys.detected = true → sys.rocmGpuFamilies = [] →
      findCompatibleArtifacts arts sys noOpts =
        arts.filter fun a => decide (a.platform = sys.platform)) := by
  constructor
  · intro h
    simp [findCompatibleArtifacts, h]
  · intro hdet hfam
    rw [findCompat_noOpts arts sys hdet]
    apply List.filter_congr
    intro a _
    simp only [compatPred, hfam, List.length_nil, Nat.lt_irrefl, if_false]
    by_cases hap : a.platform = sys.platform
    · simp [hap]
    · simp [hap]

/-- Claim C5, witness at concrete inputs. -/
theorem C5_witness :
    findCompatibleArtifacts [artB] sysUndet noOpts = [artB] ∧
    findCompatibleArtifacts [artB, artW] sysEmptyFam noOpts = [artB] := by
  constructor
  · exact (C5_amended [artB] sysUndet noOpts).1 rfl
  · exact ((C5_amended [artB, artW] sysEmptyFam noOpts).2 rfl rfl).trans
      (by decide)

/-- Claim C1, amended.  The gpu test of `findCompatibleArtifacts` is
one-directional: with a detected profile and a non-empty family-tag set, an
artifact is accepted exactly when its platform matches and some requested
tag, lowercased, occurs as a contiguous substring of the artifact's
lowercased gpuTag.  Equal tags match because every string contains itself,
but a requested wildcard `gfx110X` does not match the member tag `gfx1100`,
nor does a wildcard artifact tag match a request naming only a member. -/
theorem C1_amended (arts : List Artifact) (sys : SystemInfo) (a : Artifact)
    (hdet : sys.detected = true) (hfam : sys.rocmGpuFamilies ≠ []) :
    a ∈ findCompatibleArtifacts arts sys noOpts ↔
      a ∈ arts ∧ a.platform = sys.platform ∧
        ∃ fam ∈ sys.rocmGpuFamilies, ∃ pre post,
          lowerL a.gpu.toList = pre ++ lowerL fam.toList ++ post := by
  rw [findCompat_noOpts arts sys hdet, List.mem_filter]
  have hlen : 0 < sys.rocmGpuFamilies.length := List.length_pos.mpr hfam
  constructor
  · rintro ⟨hmem, hpred⟩
    refine ⟨hmem, ?_⟩
    by_cases hap : a.platform = sys.platform
    · refine ⟨hap, ?_⟩
      simp only [compatPred, if_pos hap, if_pos hlen] at hpred
      obtain ⟨fam, hfammem, hinf⟩ := List.any_eq_true.mp hpred
      exact ⟨fam, hfammem, (jsIncludesL_iff _ _).mp hinf⟩
    · simp [compatPred, hap] at hpred
  · rintro ⟨hmem, hap, fam, hfammem, hsub⟩
    refine ⟨hmem, ?_⟩
    simp only [compatPred, if_pos hap, if_pos hlen]
    exact List.any_eq_true.mpr ⟨fam, hfammem, (jsIncludesL_iff _ _).mpr hsub⟩

/-- Claim C1, witness at concrete inputs. -/
theorem C1_witness : artB ∈ findCompatibleArtifacts [artB] sys110 noOpts :=
  (C1_amended [artB] sys110 artB rfl (by decide)).mpr
    ⟨by decide, rfl, "gfx1100", by decide, [], [], by decide⟩

/-! ### Structure of the filename parser -/

theorem parse_eq_some_iff (url filename : String) (a : Artifact) :
    parseArtifactInfo url filename = some a ↔
      ∃ vi, ¬(splitParts filename).length < 3 ∧
        findVersionIndex (splitParts filename) = some vi ∧
        a = mkArtifact url filename (splitParts filename) vi := by
  simp only [parseArtifactInfo]
  constructor
  · intro h
    by_cases hlen : (splitParts filename).length < 3
    · rw [if_pos hlen] at h
      exact nomatch h
    · rw [if_neg hlen] at h
      cases hvi : findVersionIndex (splitParts filename) with
      | none =>
        rw [hvi] at h
        exact nomatch h
      | some vi =>
        rw [hvi] at h
        exact ⟨vi, hlen, rfl, (Option.some.inj h).symm⟩
  · rintro ⟨vi, hlen, hvi, rfl⟩
    rw [if_neg hlen, hvi]

theorem fvi_lt :
    ∀ {ps : List (List Char)} {vi : Nat},
      findVersionIndex ps = some vi → vi < ps.length := by
  intro ps
  induction ps with
  | nil => intro vi h; exact nomatch h
  | cons p rest ih =>
    intro vi h
    simp only [findVersionIndex] at h
    cases hr : findVersionIndex rest with
    | some j =>
      rw [hr] at h
      obtain rfl : j + 1 = vi := Option.some.inj h
      exact Nat.succ_lt_succ (ih hr)
    | none =>
      rw [hr] at h
      by_cases hv : versionStartL p = true
      · rw [if_pos hv] at h
        obtain rfl : 0 = vi := Option.some.inj h
        exact Nat.succ_pos _
      · rw [if_neg hv] at h
        exact nomatch h

theorem fvi_none_iff :
    ∀ ps : List (List Char),
      findVersionIndex ps = none ↔ ∀ p ∈ ps, versionStartL p = false := by
  intro ps
  induction ps with
  | nil => simp [findVersionIndex]
  | cons p rest ih =>
    simp only [findVersionIndex]
    cases hr : findVersionIndex rest with
    | some j =>
      constructor
      · intro h; exact nomatch h
      · intro h
        have : ∀ q ∈ rest, versionStartL q = false :=
          fun q hq => h q (List.mem_cons_of_mem _ hq)
        rw [ih.mpr this] at hr
        exact nomatch hr
    | none =>
      by_cases hv : versionStartL p = true
      · rw [if_pos hv]
        constructor
        · intro h; exact nomatch h
        · intro h
          rw [h p (List.mem_cons_self _ _)] at hv
          exact nomatch hv
      · rw [if_neg hv]
        constructor
        · intro _
          intro q hq
          rcases List.mem_cons.mp hq with h' | h'
          · subst h'
            cases hx : versionStartL q with
            | false => rfl
            | true => exact absurd hx hv
          · exact (ih.mp hr) q h'
        · intro _; rfl

theorem fvi_rightmost :
    ∀ {ps : List (List Char)} {vi : Nat},
      findVersionIndex ps = some vi →
        versionStartL (ps.getD vi []) = true ∧
        ∀ j, vi < j → j < ps.length → versionStartL (ps.getD j []) = false := by
  intro ps
  induction ps with
  | nil => intro vi h; exact nomatch h
  | cons p rest ih =>
    intro vi h
    simp only [findVersionIndex] at h
    cases hr : findVersionIndex rest with
    | some j =>
      rw [hr] at h
      obtain rfl : j + 1 = vi := Option.some.inj h
      obtain ⟨h1, h2⟩ := ih hr
      refine ⟨h1, ?_⟩
      intro j' hj1 hj2
      cases j' with
      | zero => exact nomatch hj1
      | succ j'' =>
        exact h2 j'' (Nat.lt_of_succ_lt_succ hj1) (Nat.lt_of_succ_lt_succ hj2)
    | none =>
      rw [hr] at h
      by_cases hv : versionStartL p = true
      · rw [if_pos hv] at h
        obtain rfl : 0 = vi := Option.some.inj h
        refine ⟨hv, ?_⟩
        intro j hj1 hj2
        cases j with
        | zero => exact nomatch hj1
        | succ j' =>
          have hmem : rest.getD j' [] ∈ rest :=
            getD_mem (Nat.lt_of_succ_lt_succ hj2)
          exact (fvi_none_iff rest).mp hr _ hmem
      · rw [if_neg hv] at h
        exact nomatch h

theorem dot_not_digit : ('.' : Char).isDigit = false := rfl

theorem tw_app {d : List Char} (rest : List Char)
    (hd : ∀ c ∈ d, c.isDigit = true) :
    (d ++ '.' :: rest).takeWhile Char.isDigit = d ∧
    (d ++ '.' :: rest).dropWhile Char.isDigit = '.' :: rest := by
  induction d with
  | nil => simp [List.takeWhile, List.dropWhile, dot_not_digit]
  | cons c d' ih =>
    have hc : c.isDigit = true := hd c (List.mem_cons_self _ _)
    have ih' := ih fun x hx => hd x (List.mem_cons_of_mem _ hx)
    simp only [List.cons_append, List.takeWhile_cons, List.dropWhile_cons, hc,
      if_true]
    exact ⟨by rw [ih'.1], by rw [ih'.2]⟩

theorem tw_all {d : List Char} (hd : ∀ c ∈ d, c.isDigit = true) :
    d.takeWhile Char.isDigit = d ∧ d.dropWhile Char.isDigit = [] := by
  constructor
  · exact List.takeWhile_eq_self_iff.mpr hd
  · induction d with
    | nil => rfl
    | cons c d' ih =>
      simp only [List.dropWhile_cons, hd c (List.mem_cons_self _ _), if_true]
      exact ih fun x hx => hd x (List.mem_cons_of_mem _ hx)

theorem isCoreL_build {d1 d2 d3 : List Char}
    (h1 : d1 ≠ []) (h2 : d2 ≠ []) (h3 : d3 ≠ [])
    (hd1 : ∀ c ∈ d1, c.isDigit = true) (hd2 : ∀ c ∈ d2, c.isDigit = true)
    (hd3 : ∀ c ∈ d3, c.isDigit = true) :
    isCoreL (d1 ++ '.' :: d2 ++ '.' :: d3) = true := by
  have e1 := tw_app (d2 ++ '.' :: d3) hd1
  have e2 := tw_app d3 hd2
  have e3 := tw_all hd3
  simp only [isCoreL]
  rw [List.append_assoc, List.cons_append]
  simp only [e1.1, e1.2, List.head?_cons, List.tail_cons, e2.1, e2.2, e3.1,
    e3.2, if_neg h1, if_neg h2]
  simp [h3]

theorem matchV3At_some {cs v r : List Char}
    (h : matchV3At cs = some (v, r)) :
    isCoreL v = true := by
  simp only [matchV3At] at h
  by_cases h1 : cs.takeWhile Char.isDigit = []
  · rw [if_pos h1] at h
    exact nomatch h
  · rw [if_neg h1] at h
    by_cases hh1 : (cs.dropWhile Char.isDigit).head? = some '.'
    · rw [if_pos hh1] at h
      by_cases h2 :
          ((cs.dropWhile Char.isDigit).tail).takeWhile Char.isDigit = []
      · rw [if_pos h2] at h
        exact nomatch h
      · rw [if_neg h2] at h
        by_cases hh2 :
            (((cs.dropWhile Char.isDigit).tail).dropWhile Char.isDigit).head? =
              some '.'
        · rw [if_pos hh2] at h
          by_cases h3 :
              ((((cs.dropWhile Char.isDigit).tail).dropWhile
                Char.isDigit).tail).takeWhile Char.isDigit = []
          · rw [if_pos h3] at h
            exact nomatch h
          · rw [if_neg h3] at h
            obtain ⟨hv, -⟩ := Prod.mk.injEq .. ▸ Option.some.inj h
            rw [← hv]
            exact isCoreL_build h1 h2 h3
              (fun c hc => List.mem_takeWhile_imp hc)
              (fun c hc => List.mem_takeWhile_imp hc)
              (fun c hc => List.mem_takeWhile_imp hc)
        · rw [if_neg hh2] at h
          exact nomatch h
    · rw [if_neg hh1] at h
      exact nomatch h

theorem searchV3_core :
    ∀ {cs v r : List Char}, searchV3 cs = some (v, r) → isCoreL v = true := by
  intro cs
  induction cs with
  | nil => intro v r h; exact nomatch h
  | cons c rest ih =>
    intro v r h
    simp only [searchV3] at h
    cases hm : matchV3At (c :: rest) with
    | some p =>
      rw [hm] at h
      obtain rfl : p = (v, r) := Option.some.inj h
      exact matchV3At_some hm
    | none =>
      rw [hm] at h
      exact ih h

theorem search8_sound :
    ∀ {cs w : List Char}, search8 cs = some w →
      ∃ pre post, cs = pre ++ w ++ post ∧ w.length = 8 ∧
        ∀ c ∈ w, c.isDigit = true := by
  intro cs
  induction cs with
  | nil => intro w h; exact nomatch h
  | cons c rest ih =>
    intro w h
    simp only [search8] at h
    by_cases hcond : ((c :: rest).take 8).length = 8 ∧
        ∀ x ∈ (c :: rest).take 8, x.isDigit = true
    · rw [if_pos hcond] at h
      obtain rfl : (c :: rest).take 8 = w := Option.some.inj h
      exact ⟨[], (c :: rest).drop 8,
        by simp [List.take_append_drop], hcond.1, hcond.2⟩
    · rw [if_neg hcond] at h
      obtain ⟨pre, post, hdec, hlen, hdig⟩ := ih h
      exact ⟨c :: pre, post, by simp [hdec], hlen, hdig⟩

theorem search8_complete :
    ∀ (pre w post : List Char), w.length = 8 → (∀ c ∈ w, c.isDigit = true) →
      (search8 (pre ++ w ++ post)).isSome = true := by
  intro pre
  induction pre with
  | nil =>
    intro w post hlen hdig
    cases w with
    | nil => exact nomatch hlen
    | cons c w' =>
      have hsplit : ([] ++ (c :: w') ++ post : List Char) =
          c :: (w' ++ post) := by simp
      rw [hsplit]
      have htake : (c :: (w' ++ post)).take 8 = c :: w' := by
        rw [← hlen]
        exact List.take_left (c :: w') post
      simp only [search8]
      rw [if_pos ⟨by rw [htake]; exact hlen, by rw [htake]; exact hdig⟩]
      rfl
  | cons p pre' ih =>
    intro w post hlen hdig
    have : (p :: pre') ++ w ++ post = p :: (pre' ++ w ++ post) := by simp
    rw [this]
    simp only [search8]
    by_cases hcond : ((p :: (pre' ++ w ++ post)).take 8).length = 8 ∧
        ∀ x ∈ (p :: (pre' ++ w ++ post)).take 8, x.isDigit = true
    · rw [if_pos hcond]; rfl
    · rw [if_neg hcond]
      exact ih w post hlen hdig

theorem parse_buildDate {url filename : String} {a : Artifact}
    (h : parseArtifactInfo url filename = some a) :
    a.buildDate = (search8 a.buildTag.toList).map fmtDate := by
  obtain ⟨vi, -, -, rfl⟩ := (parse_eq_some_iff url filename a).mp h
  rfl

/-- Claim C8.  For every parsed artifact: if the buildTag contains a run of
8 consecutive digits, buildDate is present and is `YYYY-MM-DD` formed from
such a run's 8 digits in order (`fmtDate` inserts the two dashes and keeps
the digits); if the buildTag has no 8-digit run, buildDate is absent. -/
theorem C8_buildDate (url filename : String) (a : Artifact)
    (h : parseArtifactInfo url filename = some a) :
    ((∃ pre w post, a.buildTag.toList = pre ++ w ++ post ∧ w.length = 8 ∧
        ∀ c ∈ w, c.isDigit = true) →
      ∃ pre w post, a.buildTag.toList = pre ++ w ++ post ∧ w.length = 8 ∧
        (∀ c ∈ w, c.isDigit = true) ∧ a.buildDate = some (fmtDate w)) ∧
    ((¬∃ pre w post, a.buildTag.toList = pre ++ w ++ post ∧ w.length = 8 ∧
        ∀ c ∈ w, c.isDigit = true) → a.buildDate = none) := by
  have hbd := parse_buildDate h
  constructor
  · rintro ⟨pre, w, post, hdec, hlen, hdig⟩
    cases hs : search8 a.buildTag.toList with
    | none =>
      have hc := search8_complete pre w post hlen hdig
      rw [← hdec, hs] at hc
      exact nomatch hc
    | some w' =>
      obtain ⟨pre', post', hdec', hlen', hdig'⟩ := search8_sound hs
      refine ⟨pre', w', post', hdec', hlen', hdig', ?_⟩
      rw [hbd, hs]
      rfl
  · intro hn
    cases hs : search8 a.buildTag.toList with
    | none => rw [hbd, hs]; rfl
    | some w' =>
      obtain ⟨pre', post', hdec', hlen', hdig'⟩ := search8_sound hs
      exact absurd ⟨pre', w', post', hdec', hlen', hdig'⟩ hn

/-- Claim C8, witness at concrete inputs. -/
theorem C8_witness : artWild.buildDate.isSome = true := by
  have h := (C8_buildDate "u"
    "therock-dist-linux-gfx110X-all-7.10.0a20251030.tar.gz" artWild
    (by decide)).1
    ⟨['a'], "20251030".toList, [], by decide, by decide, by decide⟩
  obtain ⟨pre, w, post, -, -, -, hbd⟩ := h
  rw [hbd]
  rfl

/-- Claim C7.  After stripping the fixed prefix/suffix and splitting on
hyphens: the parser returns null exactly when there are fewer than 3 tokens
or no token matches the version-start pattern; otherwise the first token is
the platform, the version is the rightmost token matching the pattern, and
the middle region determines gpu and variant (one token: gpu with variant
`default`; two: gpu then variant; more: all but the last rejoined with
hyphens as gpu, the last as variant). -/
theorem C7_parser_shape (url filename : String) :
    (parseArtifactInfo url filename = none ↔
      (splitParts filename).length < 3 ∨
        ∀ p ∈ splitParts filename, versionStartL p = false) ∧
    ∀ a, parseArtifactInfo url filename = some a →
      ∃ vi, findVersionIndex (splitParts filename) = some vi ∧
        versionStartL ((splitParts filename).getD vi []) = true ∧
        (∀ j, vi < j → j < (splitParts filename).length →
          versionStartL ((splitParts filename).getD j []) = false) ∧
        3 ≤ (splitParts filename).length ∧
        a.platform = ((splitParts filename).getD 0 []).asString ∧
        a.fullVersion = ((splitParts filename).getD vi []).asString ∧
        ∀ mid, mid = ((splitParts filename).drop 1).take (vi - 1) →
          (mid.length = 1 →
            a.gpu = (mid.getD 0 []).asString ∧ a.variant = some "default") ∧
          (mid.length = 2 →
            a.gpu = (mid.getD 0 []).asString ∧
            a.variant = some (mid.getD 1 []).asString) ∧
          (2 < mid.length →
            a.gpu = (joinDash mid.dropLast).asString ∧
            a.variant = mid.getLast?.map List.asString) := by
  constructor
  · constructor
    · intro h
      by_cases hlen : (splitParts filename).length < 3
      · exact Or.inl hlen
      · right
        simp only [parseArtifactInfo, if_neg hlen] at h
        cases hvi : findVersionIndex (splitParts filename) with
        | none => exact (fvi_none_iff _).mp hvi
        | some vi =>
          rw [hvi] at h
          exact nomatch h
    · intro h
      rcases h with hlen | hall
      · simp [parseArtifactInfo, hlen]
      · by_cases hlen : (splitParts filename).length < 3
        · simp [parseArtifactInfo, hlen]
        · simp only [parseArtifactInfo, if_neg hlen]
          rw [(fvi_none_iff _).mpr hall]
  · intro a h
    obtain ⟨vi, hlen, hvi, rfl⟩ := (parse_eq_some_iff url filename a).mp h
    obtain ⟨hv1, hv2⟩ := fvi_rightmost hvi
    refine ⟨vi, hvi, hv1, hv2, Nat.le_of_not_lt hlen, rfl, rfl, ?_⟩
    rintro mid rfl
    refine ⟨?_, ?_, ?_⟩
    · intro h1
      constructor
      · show (gpuVariant _).1 = _
        rw [gpuVariant, if_pos h1]
      · show (gpuVariant _).2 = _
        rw [gpuVariant, if_pos h1]
    · intro h2
      have hne1 :
          ¬(((splitParts filename).drop 1).take (vi - 1)).length = 1 := by
        rw [h2]; exact fun he => nomatch he
      constructor
      · show (gpuVariant _).1 = _
        rw [gpuVariant, if_neg hne1, if_pos h2]
      · show (gpuVariant _).2 = _
        rw [gpuVariant, if_neg hne1, if_pos h2]
    · intro h3
      have hne1 :
          ¬(((splitParts filename).drop 1).take (vi - 1)).length = 1 := by
        omega
      have hne2 :
          ¬(((splitParts filename).drop 1).take (vi - 1)).length = 2 := by
        omega
      constructor
      · show (gpuVariant _).1 = _
        rw [gpuVariant, if_neg hne1, if_neg hne2]
      · show (gpuVariant _).2 = _
        rw [gpuVariant, if_neg hne1, if_neg hne2]

/-- Claim C7, witness at concrete inputs. -/
theorem C7_witness : artWild.platform = "linux" ∧ artWild.variant = some "all" := by
  have h := (C7_parser_shape "u"
    "therock-dist-linux-gfx110X-all-7.10.0a20251030.tar.gz").2 artWild
    (by decide)
  obtain ⟨vi, hvi, -, -, -, hplat, -, hmid⟩ := h
  have hvi3 : vi = 3 := by
    have : findVersionIndex (splitParts
        "therock-dist-linux-gfx110X-all-7.10.0a20251030.tar.gz") = some 3 := by
      decide
    rw [this] at hvi
    exact (Option.some.inj hvi).symm
  subst hvi3
  have h2 := (hmid _ rfl).2.1 (by decide)
  constructor
  · rw [hplat]
    decide
  · rw [h2.2]
    decide

theorem getD_mem_take {l : List (List Char)} {j n : Nat} (hj : j < n)
    (hl : j < l.length) : l.getD j [] ∈ l.take n := by
  rw [List.getD_eq_getElem l [] hl]
  have hlen : j < (l.take n).length := by
    simp only [List.length_take]
    omega
  rw [← List.getElem_take l (h := hlen)]
  exact List.getElem_mem hlen

theorem joinDash_ne {xs : List (List Char)} (h : 2 ≤ xs.length) :
    joinDash xs ≠ [] := by
  cases xs with
  | nil => simp at h
  | cons x t =>
    cases t with
    | nil => simp at h
    | cons y t' => simp [joinDash]

/-- Claim C4, amended.  The output guarantee holds on well-formed filenames:
whenever the rightmost version-start token sits at index at least 2, every
token before it is non-empty, and the version token contains a full
`\d+.\d+.\d+` run, the parser returns a record with the input filename and
url, non-empty platform and gpuTag, a defined variant, and a coreVersion
matching the anchored pattern.  (The counterexample shows the guarantee
fails without these conditions: a version token at index 0 or 1 yields an
empty gpuTag and an undefined variant, and a version token with no full
three-component run yields a coreVersion violating the pattern.) -/
theorem C4_amended (url filename : String) (vi : Nat)
    (hurl : url ≠ "")
    (hvi : findVersionIndex (splitParts filename) = some vi)
    (h2 : 2 ≤ vi)
    (hne : ∀ p ∈ (splitParts filename).take vi, p ≠ [])
    (hv3 : ∃ pr, searchV3 ((splitParts filename).getD vi []) = some pr) :
    ∃ a, parseArtifactInfo url filename = some a ∧
      a.filename = filename ∧ a.filename ≠ "" ∧ a.url = url ∧ a.url ≠ "" ∧
      a.platform ≠ "" ∧ a.gpu ≠ "" ∧ (∃ v, a.variant = some v) ∧
      isCoreVersion a.rocmVersion = true := by
  have hlt := fvi_lt hvi
  have hlen3 : ¬(splitParts filename).length < 3 := by omega
  have hsub : ∀ p ∈ ((splitParts filename).drop 1).take (vi - 1),
      p ∈ (splitParts filename).take vi := by
    intro p hp
    have hdt : ((splitParts filename).take vi).drop 1 =
        ((splitParts filename).drop 1).take (vi - 1) :=
      List.drop_take vi 1 (splitParts filename)
    rw [← hdt] at hp
    exact List.mem_of_mem_drop hp
  have hmid_ne : ∀ p ∈ ((splitParts filename).drop 1).take (vi - 1),
      p ≠ [] := fun p hp => hne p (hsub p hp)
  have hmidlen : (((splitParts filename).drop 1).take (vi - 1)).length =
      vi - 1 := by
    simp only [List.length_take, List.length_drop]
    omega
  refine ⟨mkArtifact url filename (splitParts filename) vi,
    (parse_eq_some_iff url filename _).mpr ⟨vi, hlen3, hvi, rfl⟩,
    rfl, ?_, rfl, hurl, ?_, ?_, ?_, ?_⟩
  · show filename ≠ ""
    intro hf
    subst hf
    have hnone : findVersionIndex (splitParts "") = none := rfl
    rw [hnone] at hvi
    exact nomatch hvi
  · apply asString_ne_empty
    exact hne _ (getD_mem_take (by omega) (by omega))
  · show (gpuVariant (((splitParts filename).drop 1).take (vi - 1))).1 ≠ ""
    by_cases e1 : (((splitParts filename).drop 1).take (vi - 1)).length = 1
    · rw [gpuVariant, if_pos e1]
      exact asString_ne_empty (hmid_ne _ (getD_mem (by omega)))
    · by_cases e2 : (((splitParts filename).drop 1).take (vi - 1)).length = 2
      · rw [gpuVariant, if_neg e1, if_pos e2]
        exact asString_ne_empty (hmid_ne _ (getD_mem (by omega)))
      · rw [gpuVariant, if_neg e1, if_neg e2]
        apply asString_ne_empty
        apply joinDash_ne
        simp only [List.length_dropLast]
        omega
  · show ∃ v, (gpuVariant (((splitParts filename).drop 1).take (vi - 1))).2 =
      some v
    by_cases e1 : (((splitParts filename).drop 1).take (vi - 1)).length = 1
    · exact ⟨"default", by rw [gpuVariant, if_pos e1]⟩
    · by_cases e2 : (((splitParts filename).drop 1).take (vi - 1)).length = 2
      · exact ⟨((((splitParts filename).drop 1).take (vi - 1)).getD 1
          []).asString, by rw [gpuVariant, if_neg e1, if_pos e2]⟩
      · have hnn : (((splitParts filename).drop 1).take (vi - 1)) ≠ [] := by
          intro he
          rw [he] at hmidlen
          simp at hmidlen
          omega
        obtain ⟨y, hy⟩ := Option.isSome_iff_exists.mp
          (List.getLast?_isSome.mpr hnn)
        exact ⟨y.asString, by rw [gpuVariant, if_neg e1, if_neg e2, hy]; rfl⟩
  · obtain ⟨⟨v, r⟩, hpr⟩ := hv3
    show isCoreVersion
      (verSplit ((splitParts filename).getD vi [])).1 = true
    simp only [verSplit, hpr]
    exact searchV3_core hpr

/-- Claim C4, witness at concrete inputs. -/
theorem C4_witness : isCoreVersion artWild.rocmVersion = true ∧
    artWild.gpu ≠ "" := by
  obtain ⟨a, ha, -, -, -, -, -, hgpu, -, hcore⟩ :=
    C4_amended "u" "therock-dist-linux-gfx110X-all-7.10.0a20251030.tar.gz" 3
      (by decide) (by decide) (by decide) (by decide)
      ⟨("7.10.0".toList, "a20251030".toList), by decide⟩
  have hw : parseArtifactInfo "u"
      "therock-dist-linux-gfx110X-all-7.10.0a20251030.tar.gz" =
        some artWild := by decide
  rw [hw] at ha
  obtain rfl : artWild = a := Option.some.inj ha
  exact ⟨hcore, hgpu⟩
